import Mathlib

/-
Verification of the Selenium webpage-screenshot datasource
(datasources/url_screenshots/search_webpage_screenshots.py).

The development shallowly embeds the two components of the module:

* `validate_query` / `filename_from_url` — pure string pipelines, embedded
  directly over `List Char` with faithful models of the Python string
  operations they use (`str.split`, `str.strip`, `str.replace`, `in`,
  and the two regex operations on the fixed pattern
  archive.org/web/[0-9]+/ ).
* `get_items` — the per-URL capture loop, embedded as a state machine
  (`stepUrl` / `runLoop`) over an explicit environment `Env` that models the
  external collaborators (the Selenium driver, the interruption flag, the
  clock, the hash helper and the ural domain helper).  Each driver
  interaction during one attempt is summarised by an `AttemptOutcome`.
-/

set_option maxHeartbeats 1000000

/-! ## Python string primitives -/

/-- ASCII whitespace recognised by `str.strip()` (the URLs handled here are
ASCII; the wider Unicode whitespace set is not needed for them). -/
def isPyWs (c : Char) : Bool :=
  c = ' ' || c = '\t' || c = '\n' || c = '\r' || c = '\x0b' || c = '\x0c'

/-- Strip characters satisfying `p` from both ends, like `str.strip`. -/
def stripEnds (p : Char → Bool) (cs : List Char) : List Char :=
  ((cs.dropWhile p).reverse.dropWhile p).reverse

/-- `str.split(sep)` for a single-character separator: keeps empty pieces,
`[""]` on the empty string. -/
def splitChar (sep : Char) : List Char → List (List Char)
  | [] => [[]]
  | c :: cs =>
    if c = sep then [] :: splitChar sep cs
    else
      match splitChar sep cs with
      | [] => [[c]]
      | t :: ts => (c :: t) :: ts

/-- `str.split(sep)` for a multi-character separator, fuelled (the fuel is
instantiated with the length of the string, which is always sufficient
because every separator hit consumes at least one character). -/
def splitSepF (sep : List Char) : Nat → List Char → List (List Char)
  | 0, cs => [cs]
  | fuel + 1, cs =>
    match cs with
    | [] => [[]]
    | c :: cs2 =>
      if sep ≠ [] ∧ sep.isPrefixOf (c :: cs2) then
        [] :: splitSepF sep fuel ((c :: cs2).drop sep.length)
      else
        match splitSepF sep fuel cs2 with
        | [] => [[c]]
        | t :: ts => (c :: t) :: ts

/-- `str.replace(pat, repl)`: replace every non-overlapping occurrence,
scanning left to right; fuelled like `splitSepF`. -/
def replaceAllF (pat repl : List Char) : Nat → List Char → List Char
  | 0, cs => cs
  | fuel + 1, cs =>
    match cs with
    | [] => []
    | c :: cs2 =>
      if pat ≠ [] ∧ pat.isPrefixOf (c :: cs2) then
        repl ++ replaceAllF pat repl fuel ((c :: cs2).drop pat.length)
      else
        c :: replaceAllF pat repl fuel cs2

/-- Python's `pat in s` substring test. -/
def hasSub (pat : List Char) : List Char → Bool
  | [] => pat.isPrefixOf []
  | c :: cs => pat.isPrefixOf (c :: cs) || hasSub pat cs

/-- `", ".join(xs)` as used to freeze the per-URL error list. -/
def joinComma : List String → String
  | [] => ""
  | [s] => s
  | s :: s2 :: rest => s ++ ", " ++ joinComma (s2 :: rest)

/-! String-level wrappers. -/

def pyReplaceNl (s : String) : String :=
  String.mk (s.toList.map fun c => if c = '\n' then ',' else c)

def pySplitComma (s : String) : List String :=
  (splitChar ',' s.toList).map String.mk

def pyStrip (s : String) : String :=
  String.mk (stripEnds isPyWs s.toList)

def pySplitSep (sep : String) (s : String) : List String :=
  (splitSepF sep.toList s.toList.length s.toList).map String.mk

def pyReplaceAll (pat repl s : String) : String :=
  String.mk (replaceAllF pat.toList repl.toList s.toList.length s.toList)

def pyContains (pat s : String) : Bool :=
  hasSub pat.toList s.toList

def pyStripSlash (s : String) : String :=
  String.mk (stripEnds (fun c => c = '/') s.toList)

/-! ## The wayback-machine toolbar rewrite

`re.sub(r"archive\.org/web/([0-9]+)/", "archive.org/web/\\1if_/", url)`,
guarded by `re.findall(r"archive\.org/web/[0-9]+/", url)`
(search_webpage_screenshots.py lines 254-258).  Because `/` is not a digit,
the regex matches at a position exactly when the literal
`archive.org/web/` is followed by a maximal nonempty digit run and then
`/`, which is what `matchArch` decides. -/

def archLit : List Char := "archive.org/web/".toList

def ifLit : List Char := "if_/".toList

/-- Split off the maximal digit prefix. -/
def takeDigits : List Char → List Char × List Char
  | [] => ([], [])
  | c :: cs =>
    if c.isDigit then
      let p := takeDigits cs
      (c :: p.1, p.2)
    else ([], c :: cs)

/-- Try to match `archive.org/web/<digits>/` at the head of `cs`; on success
return the digit run and the remainder after the trailing slash. -/
def matchArch (cs : List Char) : Option (List Char × List Char) :=
  if archLit.isPrefixOf cs then
    match takeDigits (cs.drop 16) with
    | (d :: ds, '/' :: r) => some (d :: ds, r)
    | _ => none
  else none

/-- The scan of `re.sub`: at each position try the pattern, on a match emit
`archive.org/web/<digits>if_/` and continue after the match, otherwise copy
one character.  Fuelled; each step consumes at least one character. -/
def subArchiveF : Nat → List Char → List Char
  | 0, cs => cs
  | fuel + 1, cs =>
    match matchArch cs with
    | some (ds, r) => archLit ++ ds ++ ifLit ++ subArchiveF fuel r
    | none =>
      match cs with
      | [] => []
      | c :: cs2 => c :: subArchiveF fuel cs2

def subArchive (cs : List Char) : List Char := subArchiveF cs.length cs

/-- `re.findall(r"archive\.org/web/[0-9]+/", url) ≠ []`. -/
def hasMatch : List Char → Bool
  | [] => false
  | c :: cs => (matchArch (c :: cs)).isSome || hasMatch cs

/-- One iteration of the detoolbarring loop body (lines 255-256). -/
def detoolbar (cs : List Char) : List Char :=
  if hasMatch cs then subArchive cs else cs

def detoolbarS (s : String) : String := String.mk (detoolbar s.toList)

/-! ## validate_query (lines 226-268) -/

/-- The three `QueryParametersException` sites of `validate_query`. -/
inductive QueryError where
  | emptyInput : QueryError
  | tooMany : Nat → QueryError
  | noValidUrls : QueryError
deriving DecidableEq

/-- `[url.strip() for url in raw.replace("\n", ",").split(',')]` (line 244). -/
def tokenize (s : String) : List String :=
  (pySplitComma (pyReplaceNl s)).map pyStrip

/-- The tokens surviving the `ural.is_url` filter (line 245); the predicate
itself belongs to the external `ural` library and is a parameter. -/
def survivors (isUrl : String → Bool) (s : String) : List String :=
  (tokenize s).filter isUrl

/-- `validate_query`, with the external pieces as parameters: `isUrl` for
`ural.is_url(..., require_protocol=True, tld_aware=True,
only_http_https=True, allow_spaces_in_path=False)` and `maxSites` for
`config.get("selenium.max_sites")`.  The raw `query.get("query", None)`
value is an `Option String`; Python falsiness makes `none` and `some ""`
both hit the first check. -/
def validate_query (isUrl : String → Bool) (maxSites : Nat)
    (raw : Option String) : Except QueryError (List String) :=
  match raw with
  | none => .error .emptyInput
  | some s =>
    if s = "" then .error .emptyInput
    else
      let pre := survivors isUrl s
      if pre.length > maxSites then .error (.tooMany maxSites)
      else
        let detooled := pre.map detoolbarS
        if detooled.isEmpty then .error .noValidUrls
        else .ok detooled

/-! ## filename_from_url (lines 270-289) -/

/-- `filename_from_url`, with `url_to_hash` (common.lib.helpers), the
capture-time `datetime.now().strftime("%Y%m%d%H%M%S")` string and
`ural.get_domain_name` as parameters.  The archive branch mirrors the
Python chain of `split` / `replace` / `strip` calls; `none` models the
`IndexError` that `url.split("://")[1]` raises when the archived part of
the URL has no scheme separator. -/
def filename_from_url (urlHash : String → String) (nowStr : String)
    (getDomain : String → String) (url : String) : Option String :=
  let url_hash := urlHash url
  let domain := getDomain url
  let timestamp := nowStr
  if pyContains "web.archive.org/web/" url then
    match (pySplitSep "web.archive.org/web/" url).get? 1 with
    | none => none
    | some after =>
      let timestamp2 := pyReplaceAll "if_" "" ((pySplitSep "/" after).headD "")
      match (pySplitSep "://" after).get? 1 with
      | none => none
      | some afterScheme =>
        let domain2 := pyStripSlash ((pySplitSep "/" afterScheme).headD "") ++ "-archived"
        some (domain2 ++ "-" ++ timestamp2 ++ "-" ++ url_hash)
  else some (domain ++ "-" ++ timestamp ++ "-" ++ url_hash)

/-! ## The capture loop (get_items, lines 97-224)

External collaborators are collected in `Env`.  One navigation attempt for a
URL interacts with the driver three times: `driver.get` (which may raise),
`check_for_movement`, and `save_screenshot` (which may raise); the outcome
of those interactions is an `AttemptOutcome`, a function of the URL and the
attempt number.  The readiness waiting (scrolling or polling, lines
169-179) only consumes time and does not touch the result record, so it
has no footprint in the state. -/

structure AttemptOutcome where
  /-- `some e`: `self.driver.get(url)` raised with message `e` (line 161). -/
  navError : Option String
  /-- result of `self.check_for_movement()` (line 181). -/
  movement : Bool
  /-- `some e`: `self.save_screenshot(...)` raised with message `e` (line 186). -/
  saveError : Option String
deriving DecidableEq

structure Env where
  /-- `self.interrupted`, sampled at the start of iteration `n` (line 132). -/
  interrupted : Nat → Bool
  /-- driver interactions of attempt `a` (1-based) for a URL. -/
  attemptOutcome : String → Nat → AttemptOutcome
  /-- `self.driver.current_url` after a successful capture (line 209). -/
  currentUrl : String → String
  /-- `self.driver.title` after a successful capture (line 210). -/
  title : String → String
  /-- `url_to_hash` from common.lib.helpers (line 278). -/
  urlHash : String → String
  /-- `ural.get_domain_name` (line 279). -/
  getDomain : String → String
  /-- `datetime.datetime.now().strftime("%Y%m%d%H%M%S")` (line 282). -/
  nowStr : String
  /-- `int(datetime.datetime.now().timestamp())` (line 204). -/
  now : Nat

/-- What one pass of the `while attempts < 2` body does after the waiting
phase: either the screenshot is saved (`ok`) or an error string is appended
to `result['error']` and the loop continues (`fail`). -/
inductive AttemptStep where
  | ok : AttemptStep
  | fail : String → AttemptStep
deriving DecidableEq

/-- Lines 160-202: navigation exception (line 166), movement failure
(line 202) and screenshot exception (line 189) each append one message;
otherwise the screenshot is saved. -/
def attemptStep (o : AttemptOutcome) (a : Nat) : AttemptStep :=
  match o.navError with
  | some e => .fail ("Attempt " ++ toString a ++ ": " ++ e)
  | none =>
    if o.movement then
      match o.saveError with
      | some e => .fail ("Attempt " ++ toString a ++ ": " ++ e)
      | none => .ok
    else .fail "Driver was not able to navigate to page"

structure AttemptsResult where
  errors : List String
  success : Bool
  attemptsUsed : Nat
deriving DecidableEq

/-- The `while attempts < 2` loop (lines 155-202); the fuel starts at 2 and
equals `2 - attempts`. -/
def attemptLoop (env : Env) (url : String) : Nat → Nat → List String → AttemptsResult
  | 0, attempts, errs => ⟨errs, false, attempts⟩
  | fuel + 1, attempts, errs =>
    match attemptStep (env.attemptOutcome url (attempts + 1)) (attempts + 1) with
    | .ok => ⟨errs, true, attempts + 1⟩
    | .fail m => attemptLoop env url fuel (attempts + 1) (errs ++ [m])

def runAttempts (env : Env) (url : String) : AttemptsResult :=
  attemptLoop env url 2 0 []

/-- The frozen per-URL record written into `metadata` (lines 146-213):
`error` is the `', '.join`-ed list, `final_url`/`subject` are set only on
success, `timestamp` is always set before freezing (line 204). -/
structure CaptureResult where
  url : String
  filename : String
  timestamp : Option Nat
  error : String
  final_url : Option String
  subject : Option String
deriving DecidableEq

def freezeResult (env : Env) (url filename : String) : CaptureResult :=
  let ar := runAttempts env url
  { url := url
    filename := filename
    timestamp := some env.now
    error := joinComma ar.errors
    final_url := if ar.success then some (env.currentUrl url) else none
    subject := if ar.success then some (env.title url) else none }

/-- State of the outer `while urls_to_scrape` loop: the counters
(lines 124-125), the dedup set (line 127), the metadata mapping (line 129),
plus two observables of the collaborators — the `driver.get` calls issued
and the files saved into the staging area. -/
structure LoopState where
  screenshots : Nat
  done : Nat
  /-- number of loop iterations run, indexing the interruption samples. -/
  step : Nat
  scraped : List String
  metadata : List (String × CaptureResult)
  navCalls : List String
  files : List String
deriving DecidableEq

/-- The two ways `get_items` escapes the loop by exception:
`ProcessorInterruptedException` (line 133) and the `IndexError` that
`filename_from_url` can raise (line 145 via line 287). -/
inductive AbortKind where
  | interrupted : AbortKind
  | filenameError : String → AbortKind
deriving DecidableEq

structure Abort where
  kind : AbortKind
  /-- the loop state at the moment the exception propagates; its `files`
  are already on disk in the staging area. -/
  state : LoopState
deriving DecidableEq

def filenameOf (env : Env) (u : String) : Option String :=
  filename_from_url env.urlHash env.nowStr env.getDomain u

def pngName (env : Env) (u : String) : String :=
  (filenameOf env u).getD "" ++ ".png"

/-- One iteration of the outer loop after the interruption check: the
duplicate skip (lines 137-139) or the full processing of a fresh URL
(lines 144-214).  `scraped_urls.add(url)` (line 144) precedes the filename
computation and the attempts. -/
def stepUrl (env : Env) (s : LoopState) (url : String) : Except Abort LoopState :=
  if url ∈ s.scraped then
    .ok { s with done := s.done + 1, step := s.step + 1 }
  else
    let s1 := { s with scraped := s.scraped ++ [url] }
    match filenameOf env url with
    | none => .error ⟨.filenameError url, s1⟩
    | some fname =>
      let filename := fname ++ ".png"
      let ar := runAttempts env url
      .ok { s1 with
        screenshots := s1.screenshots + (if ar.success then 1 else 0)
        done := s1.done + 1
        step := s1.step + 1
        metadata := s1.metadata ++ [(url, freezeResult env url filename)]
        navCalls := s1.navCalls ++ List.replicate ar.attemptsUsed url
        files := s1.files ++ (if ar.success then [filename] else []) }

/-- The outer loop (lines 131-214): the interruption flag is sampled before
each URL is started. -/
def runLoop (env : Env) : LoopState → List String → Except Abort LoopState
  | s, [] => .ok s
  | s, url :: rest =>
    if env.interrupted s.step then .error ⟨.interrupted, s⟩
    else
      match stepUrl env s url with
      | .error a => .error a
      | .ok s2 => runLoop env s2 rest

def initState : LoopState := ⟨0, 0, 0, [], [], [], []⟩

def runCapture (env : Env) (urls : List String) : Except Abort LoopState :=
  runLoop env initState urls

def metadataFilename : String := ".metadata.json"

/-- Files present in the staging area when `get_items` terminates: the
metadata document is written only after the loop completes (line 216), so
it is absent when an exception propagates. -/
def stagingAfter : Except Abort LoopState → List String
  | .ok s => s.files ++ [metadataFilename]
  | .error a => a.state.files

/-- The metadata document `json.dump`-ed at line 216, if it was written. -/
def metadataDocument : Except Abort LoopState → Option (List (String × CaptureResult))
  | .ok s => some s.metadata
  | .error _ => none

/-! Closed forms used to characterise the loop. -/

/-- First occurrences of the URLs that are not yet in `scraped`: the order
in which fresh URLs are processed. -/
def firstNew (scraped : List String) : List String → List String
  | [] => []
  | u :: us =>
    if u ∈ scraped then firstNew scraped us
    else u :: firstNew (scraped ++ [u]) us

def countSucc (env : Env) (l : List String) : Nat :=
  l.countP fun u => (runAttempts env u).success

def navOf (env : Env) (u : String) : List String :=
  List.replicate (runAttempts env u).attemptsUsed u

def fileOf (env : Env) (u : String) : Option String :=
  if (runAttempts env u).success then some (pngName env u) else none

def entryOf (env : Env) (u : String) : String × CaptureResult :=
  (u, freezeResult env u (pngName env u))

/-! ## Idempotence of the toolbar rewrite -/

def tailLit : List Char := "rchive.org/web/".toList

theorem archLit_cons : archLit = 'a' :: tailLit := by decide

theorem archLit_length : archLit.length = 16 := by decide

theorem matchArch_nil : matchArch [] = none := by decide

theorem takeDigits_eq : ∀ cs : List Char, (takeDigits cs).1 ++ (takeDigits cs).2 = cs := by
  intro cs
  induction cs with
  | nil => rfl
  | cons c cs ih =>
    by_cases h : c.isDigit = true
    · simp [takeDigits, h, ih]
    · simp [takeDigits, h]

theorem takeDigits_digits : ∀ cs : List Char, ∀ c ∈ (takeDigits cs).1, c.isDigit = true := by
  intro cs
  induction cs with
  | nil => intro c hc; simp [takeDigits] at hc
  | cons a cs ih =>
    intro c hc
    by_cases h : a.isDigit = true
    · simp only [takeDigits, if_pos h, List.mem_cons] at hc
      rcases hc with rfl | hc
      · exact h
      · exact ih c hc
    · simp [takeDigits, h] at hc

theorem takeDigits_append : ∀ (ds : List Char) (c : Char) (r : List Char),
    (∀ x ∈ ds, x.isDigit = true) → c.isDigit = false →
    takeDigits (ds ++ c :: r) = (ds, c :: r) := by
  intro ds
  induction ds with
  | nil => intro c r _ hc; simp [takeDigits, hc]
  | cons d ds ih =>
    intro c r hds hc
    have hd : d.isDigit = true := hds d (by simp)
    simp [takeDigits, hd, ih c r (fun x hx => hds x (by simp [hx])) hc]

theorem matchArch_eq_some {cs ds r} (h : matchArch cs = some (ds, r)) :
    cs = archLit ++ ds ++ '/' :: r ∧ ds ≠ [] ∧ ∀ c ∈ ds, c.isDigit = true := by
  unfold matchArch at h
  split at h
  case isTrue hp =>
    obtain ⟨t, ht⟩ := List.isPrefixOf_iff_prefix.mp hp
    subst ht
    rw [← archLit_length, List.drop_left] at h
    split at h
    case h_1 d dq rq heq =>
      simp only [Option.some.injEq, Prod.mk.injEq] at h
      obtain ⟨h1, h2⟩ := h
      have heqt := takeDigits_eq t
      have hdigs := takeDigits_digits t
      rw [heq] at heqt hdigs
      subst h1
      subst h2
      refine ⟨?_, by simp, hdigs⟩
      rw [List.append_assoc]
      exact congrArg (archLit ++ ·) heqt.symm
    case h_2 => exact absurd h (by simp)
  case isFalse => exact absurd h (by simp)

theorem matchArch_intro (ds r : List Char) (hne : ds ≠ [])
    (hdig : ∀ c ∈ ds, c.isDigit = true) :
    matchArch (archLit ++ ds ++ '/' :: r) = some (ds, r) := by
  unfold matchArch
  rw [List.append_assoc]
  have hp : archLit.isPrefixOf (archLit ++ (ds ++ '/' :: r)) = true :=
    List.isPrefixOf_iff_prefix.mpr (List.prefix_append _ _)
  rw [if_pos hp, ← archLit_length, List.drop_left]
  rw [takeDigits_append ds '/' r hdig (by decide)]
  cases ds with
  | nil => exact absurd rfl hne
  | cons d ds => rfl

theorem matchArch_canon (ds t : List Char) (hne : ds ≠ [])
    (hdig : ∀ c ∈ ds, c.isDigit = true) :
    matchArch (archLit ++ ds ++ ifLit ++ t) = none := by
  unfold matchArch
  have hassoc : archLit ++ ds ++ ifLit ++ t
      = archLit ++ (ds ++ 'i' :: ("f_/".toList ++ t)) := by
    rw [show ifLit = 'i' :: "f_/".toList from by decide]
    simp [List.append_assoc]
  rw [hassoc]
  have hp : archLit.isPrefixOf (archLit ++ (ds ++ 'i' :: ("f_/".toList ++ t))) = true :=
    List.isPrefixOf_iff_prefix.mpr (List.prefix_append _ _)
  rw [if_pos hp, ← archLit_length, List.drop_left]
  rw [takeDigits_append ds 'i' _ hdig (by decide)]
  cases ds with
  | nil => exact absurd rfl hne
  | cons d ds => rfl

theorem matchArch_ne_a {c : Char} {cs : List Char} (h : c ≠ 'a') :
    matchArch (c :: cs) = none := by
  unfold matchArch
  split
  case isTrue hp =>
    exfalso
    obtain ⟨t, ht⟩ := List.isPrefixOf_iff_prefix.mp hp
    rw [archLit_cons] at ht
    simp only [List.cons_append, List.cons.injEq] at ht
    exact h ht.1.symm
  case isFalse => rfl

theorem matchArch_shrink {cs ds r} (h : matchArch cs = some (ds, r)) :
    r.length + 18 ≤ cs.length := by
  obtain ⟨hcs, hne, _⟩ := matchArch_eq_some h
  subst hcs
  have : 1 ≤ ds.length := List.length_pos.mpr hne
  simp only [List.length_append, List.length_cons, archLit_length]
  omega

theorem subArchiveF_nil : ∀ f, subArchiveF f [] = [] := by
  intro f
  cases f with
  | zero => rfl
  | succ f => simp [subArchiveF, matchArch_nil]

theorem subArchiveF_congr : ∀ (n f f' : Nat) (cs : List Char), cs.length = n →
    n ≤ f → n ≤ f' → subArchiveF f cs = subArchiveF f' cs := by
  intro n
  induction n using Nat.strong_induction_on with
  | _ n ih =>
    intro f f' cs hlen hf hf'
    cases cs with
    | nil => rw [subArchiveF_nil, subArchiveF_nil]
    | cons c cs =>
      have hn : 1 ≤ n := by simp [← hlen]
      obtain ⟨g, rfl⟩ : ∃ k, f = k + 1 := ⟨f - 1, by omega⟩
      obtain ⟨g', rfl⟩ : ∃ k, f' = k + 1 := ⟨f' - 1, by omega⟩
      cases hm : matchArch (c :: cs) with
      | some p =>
        obtain ⟨ds, r⟩ := p
        have hs := matchArch_shrink hm
        simp only [List.length_cons] at hs hlen
        simp only [subArchiveF, hm]
        exact congrArg (fun z => archLit ++ ds ++ ifLit ++ z)
          (ih r.length (by omega) g g' r rfl (by omega) (by omega))
      | none =>
        simp only [List.length_cons] at hlen
        simp only [subArchiveF, hm]
        exact congrArg (fun z => c :: z)
          (ih cs.length (by omega) g g' cs rfl (by omega) (by omega))

theorem subArchive_match {cs ds r : List Char} (h : matchArch cs = some (ds, r)) :
    subArchive cs = archLit ++ ds ++ ifLit ++ subArchive r := by
  have hs := matchArch_shrink h
  cases cs with
  | nil => rw [matchArch_nil] at h; exact absurd h (by simp)
  | cons c cs =>
    show subArchiveF (c :: cs).length (c :: cs) = _
    simp only [List.length_cons, subArchiveF, h]
    simp only [List.length_cons] at hs
    have : subArchiveF cs.length r = subArchive r :=
      subArchiveF_congr r.length cs.length r.length r rfl (by omega) (by omega)
    rw [this]

theorem subArchive_skip {c : Char} {cs : List Char} (h : matchArch (c :: cs) = none) :
    subArchive (c :: cs) = c :: subArchive cs := by
  show subArchiveF (c :: cs).length (c :: cs) = _
  simp only [List.length_cons, subArchiveF, h]
  rfl

theorem hasMatch_append_noA : ∀ (xs t : List Char), (∀ c ∈ xs, c ≠ 'a') →
    hasMatch (xs ++ t) = hasMatch t := by
  intro xs t
  induction xs with
  | nil => intro _; rfl
  | cons x xs ih =>
    intro h
    have hx : x ≠ 'a' := h x (by simp)
    simp only [List.cons_append, hasMatch, matchArch_ne_a hx]
    simp [ih (fun c hc => h c (by simp [hc]))]

theorem subArchive_prefix_transfer : ∀ (n : Nat) (cs w x : List Char), cs.length = n →
    subArchive cs = w ++ x → (∀ c ∈ w, c ≠ 'a') → w <+: cs := by
  intro n
  induction n using Nat.strong_induction_on with
  | _ n ih =>
    intro cs w x hlen hsub hw
    cases hm : matchArch cs with
    | some p =>
      obtain ⟨ds, r⟩ := p
      rw [subArchive_match hm] at hsub
      cases w with
      | nil => exact List.nil_prefix
      | cons wc wrest =>
        exfalso
        rw [archLit_cons] at hsub
        simp only [List.cons_append, List.append_assoc, List.cons.injEq] at hsub
        exact hw wc (by simp) hsub.1.symm
    | none =>
      cases cs with
      | nil =>
        have hw0 : w = [] := by
          have h0 : ([] : List Char) = w ++ x := hsub
          exact (List.append_eq_nil.mp h0.symm).1
        subst hw0
        exact List.nil_prefix
      | cons c cs =>
        rw [subArchive_skip hm] at hsub
        cases w with
        | nil => exact List.nil_prefix
        | cons wc wrest =>
          simp only [List.cons_append, List.cons.injEq] at hsub
          obtain ⟨hc, h2⟩ := hsub
          simp only [List.length_cons] at hlen
          have hpre := ih cs.length (by omega) cs wrest x rfl h2
            (fun d hd => hw d (by simp [hd]))
          exact List.cons_prefix_cons.mpr ⟨hc.symm, hpre⟩

theorem tailLit_noA : ∀ c ∈ tailLit, c ≠ 'a' := by decide

theorem ifLit_noA : ∀ c ∈ ifLit, c ≠ 'a' := by decide

theorem digit_ne_a {c : Char} (h : c.isDigit = true) : c ≠ 'a' := by
  intro hc
  subst hc
  exact absurd h (by decide)

theorem hasMatch_subArchive : ∀ (n : Nat) (cs : List Char), cs.length = n →
    hasMatch (subArchive cs) = false := by
  intro n
  induction n using Nat.strong_induction_on with
  | _ n ih =>
    intro cs hlen
    cases hm : matchArch cs with
    | some p =>
      obtain ⟨ds, r⟩ := p
      obtain ⟨hcs, hne, hdig⟩ := matchArch_eq_some hm
      have hs := matchArch_shrink hm
      rw [subArchive_match hm]
      have hshape : archLit ++ ds ++ ifLit ++ subArchive r
          = 'a' :: (((tailLit ++ ds) ++ ifLit) ++ subArchive r) := by
        rw [archLit_cons]
        simp [List.append_assoc]
      rw [hshape]
      show ((matchArch ('a' :: (((tailLit ++ ds) ++ ifLit) ++ subArchive r))).isSome
          || hasMatch (((tailLit ++ ds) ++ ifLit) ++ subArchive r)) = false
      rw [← hshape, matchArch_canon ds (subArchive r) hne hdig]
      have hnoA : ∀ c ∈ (tailLit ++ ds) ++ ifLit, c ≠ 'a' := by
        intro c hc
        simp only [List.mem_append] at hc
        rcases hc with (hc | hc) | hc
        · exact tailLit_noA c hc
        · exact digit_ne_a (hdig c hc)
        · exact ifLit_noA c hc
      rw [hasMatch_append_noA _ _ hnoA]
      rw [ih r.length (by omega) r rfl]
      rfl
    | none =>
      cases cs with
      | nil => rfl
      | cons c cs =>
        rw [subArchive_skip hm]
        simp only [List.length_cons] at hlen
        show ((matchArch (c :: subArchive cs)).isSome || hasMatch (subArchive cs)) = false
        rw [ih cs.length (by omega) cs rfl]
        by_cases hca : c = 'a'
        · subst hca
          cases hm2 : matchArch ('a' :: subArchive cs) with
          | none => rfl
          | some p =>
            exfalso
            obtain ⟨ds, r⟩ := p
            obtain ⟨hcs2, hne, hdig⟩ := matchArch_eq_some hm2
            rw [archLit_cons] at hcs2
            simp only [List.cons_append, List.append_assoc, List.cons.injEq, true_and] at hcs2
            have h2 : subArchive cs = ((tailLit ++ ds) ++ ['/']) ++ r := by
              rw [hcs2]
              simp [List.append_assoc]
            have hnoA : ∀ d ∈ (tailLit ++ ds) ++ ['/'], d ≠ 'a' := by
              intro d hd
              simp only [List.mem_append] at hd
              rcases hd with (hd | hd) | hd
              · exact tailLit_noA d hd
              · exact digit_ne_a (hdig d hd)
              · simp only [List.mem_singleton] at hd; subst hd; decide
            have hpre := subArchive_prefix_transfer cs.length cs _ r rfl h2 hnoA
            obtain ⟨y, hy⟩ := hpre
            have hcs3 : 'a' :: cs = archLit ++ ds ++ '/' :: y := by
              rw [← hy, archLit_cons]
              simp [List.append_assoc]
            have hsome := matchArch_intro ds y hne hdig
            rw [← hcs3, hm] at hsome
            exact absurd hsome (by simp)
        · rw [matchArch_ne_a hca]
          rfl

theorem hasMatch_subArchive_false (cs : List Char) : hasMatch (subArchive cs) = false :=
  hasMatch_subArchive cs.length cs rfl

theorem subArchive_of_noMatch : ∀ cs : List Char, hasMatch cs = false → subArchive cs = cs := by
  intro cs
  induction cs with
  | nil => intro _; rfl
  | cons c cs ih =>
    intro h
    have h0 : ((matchArch (c :: cs)).isSome || hasMatch cs) = false := h
    simp only [Bool.or_eq_false_iff] at h0
    have hm : matchArch (c :: cs) = none := by
      cases hmm : matchArch (c :: cs) with
      | none => rfl
      | some p => rw [hmm] at h0; exact absurd h0.1 (by simp)
    rw [subArchive_skip hm, ih h0.2]

theorem detoolbar_idem (cs : List Char) : detoolbar (detoolbar cs) = detoolbar cs := by
  unfold detoolbar
  by_cases h : hasMatch cs = true
  · rw [if_pos h, hasMatch_subArchive_false cs]
    simp
  · rw [if_neg h, if_neg h]

/-- Claim C4: the archive-toolbar rewrite applied by `validate_query`
(guarded `re.sub` on `archive.org/web/<digits>/`) is idempotent on every
URL string: a second application returns the first result unchanged, so
the `if_` suffix is never double-inserted. -/
theorem detoolbar_idempotent (s : String) : detoolbarS (detoolbarS s) = detoolbarS s := by
  show String.mk (detoolbar (detoolbar s.toList)) = String.mk (detoolbar s.toList)
  rw [detoolbar_idem]

/-! ## validate_query and filename claims -/

/-- Claim C6: `validate_query` raises a `QueryParametersException` (and no
capture starts) exactly when the raw input is empty (missing or `""`), when
zero URLs survive the `ural.is_url` filter, or when the surviving count
exceeds the configured maximum; on every other input it returns the
sanitised (filtered, toolbar-rewritten) URL list. -/
theorem validate_query_error_iff (isUrl : String → Bool) (maxSites : Nat)
    (raw : Option String) :
    ((∃ e, validate_query isUrl maxSites raw = .error e) ↔
      (raw.getD "" = "" ∨ survivors isUrl (raw.getD "") = [] ∨
        (survivors isUrl (raw.getD "")).length > maxSites)) ∧
    (¬ (raw.getD "" = "" ∨ survivors isUrl (raw.getD "") = [] ∨
        (survivors isUrl (raw.getD "")).length > maxSites) →
      validate_query isUrl maxSites raw =
        .ok ((survivors isUrl (raw.getD "")).map detoolbarS)) := by
  cases raw with
  | none =>
    constructor
    · simp [validate_query]
    · intro h
      exact absurd (Or.inl rfl) h
  | some s =>
    by_cases hs : s = ""
    · subst hs
      constructor
      · simp [validate_query]
      · intro h
        exact absurd (Or.inl rfl) h
    · by_cases h1 : (survivors isUrl s).length > maxSites
      · constructor
        · simp only [Option.getD_some]
          constructor
          · intro _
            exact Or.inr (Or.inr h1)
          · intro _
            refine ⟨.tooMany maxSites, ?_⟩
            simp [validate_query, hs, h1]
        · intro h
          exact absurd (Or.inr (Or.inr h1)) h
      · by_cases h2 : survivors isUrl s = []
        · constructor
          · simp only [Option.getD_some]
            constructor
            · intro _
              exact Or.inr (Or.inl h2)
            · intro _
              refine ⟨.noValidUrls, ?_⟩
              simp [validate_query, hs, h1, h2]
          · intro h
            exact absurd (Or.inr (Or.inl h2)) h
        · have hok : validate_query isUrl maxSites (some s) =
              .ok ((survivors isUrl s).map detoolbarS) := by
            simp only [validate_query, if_neg hs, if_neg h1]
            rw [if_neg]
            simp only [List.isEmpty_iff, List.map_eq_nil_iff]
            exact h2
          constructor
          · simp only [Option.getD_some]
            constructor
            · intro ⟨e, he⟩
              rw [hok] at he
              exact absurd he (by simp)
            · intro h
              rcases h with h | h | h
              · exact absurd h hs
              · exact absurd h h2
              · exact absurd h h1
          · intro _
            exact hok

/-- Claim C7: on every input accepted by `validate_query` the returned URL
list has length at most the configured maximum, every element satisfies the
URL-validity predicate (granting that the toolbar rewrite preserves it, as
it does for `ural.is_url`), and the list is exactly the rewrite of the
surviving tokens in first-seen order, duplicates kept. -/
theorem preprocessor_output_spec (isUrl : String → Bool) (maxSites : Nat)
    (raw : Option String) (out : List String)
    (hpres : ∀ u, isUrl u = true → isUrl (detoolbarS u) = true)
    (hok : validate_query isUrl maxSites raw = .ok out) :
    out.length ≤ maxSites ∧ (∀ u ∈ out, isUrl u = true) ∧
    out = (survivors isUrl (raw.getD "")).map detoolbarS := by
  cases raw with
  | none => exact absurd hok (by simp [validate_query])
  | some s =>
    by_cases hs : s = ""
    · subst hs
      exact absurd hok (by simp [validate_query])
    · by_cases h1 : (survivors isUrl s).length > maxSites
      · exact absurd hok (by simp [validate_query, hs, h1])
      · by_cases h2 : ((survivors isUrl s).map detoolbarS).isEmpty
        · exact absurd hok (by simp [validate_query, hs, h1, h2])
        · have hout : out = (survivors isUrl s).map detoolbarS := by
            have := hok
            simp only [validate_query, if_neg hs, if_neg h1, if_neg
              (by simpa using h2 : ¬ ((survivors isUrl s).map detoolbarS).isEmpty = true)] at this
            exact (Except.ok.injEq _ _ ▸ this.symm : _)
          subst hout
          refine ⟨?_, ?_, rfl⟩
          · rw [List.length_map]
            omega
          · intro u hu
            simp only [List.mem_map] at hu
            obtain ⟨v, hv, rfl⟩ := hu
            have hvv : isUrl v = true := List.of_mem_filter hv
            exact hpres v hvv

def isUrlW (s : String) : Bool := s == "http://x.com"

theorem validate_query_error_iff_witness :
    ∃ e, validate_query isUrlW 10 (some "") = .error e :=
  (validate_query_error_iff isUrlW 10 (some "")).1.mpr (Or.inl rfl)

theorem preprocessor_output_spec_witness :
    (["http://x.com"] : List String).length ≤ 10 ∧
    (∀ u ∈ (["http://x.com"] : List String), isUrlW u = true) ∧
    (["http://x.com"] : List String)
      = (survivors isUrlW ((some "http://x.com,foo" : Option String).getD "")).map detoolbarS :=
  preprocessor_output_spec isUrlW 10 (some "http://x.com,foo") ["http://x.com"]
    (fun u hu => by
      have hu2 : u = "http://x.com" := by simpa [isUrlW] using hu
      subst hu2
      decide)
    (by rfl)

def archExampleUrl : String :=
  "https://web.archive.org/web/20200101120000/https://example.com"

/-- Claim C8: for the archive-snapshot URL
https-web.archive.org-web-20200101120000-https-example.com the derived
filename is `example.com-archived-20200101120000-<hash>`: the archived
domain suffixed `-archived` and the snapshot timestamp, independent of the
capture-time timestamp string and of the `ural` domain of the archive host. -/
theorem filename_archive_snapshot (urlHash : String → String) (nowStr : String)
    (getDomain : String → String) :
    filename_from_url urlHash nowStr getDomain archExampleUrl
      = some ("example.com-archived-20200101120000-" ++ urlHash archExampleUrl) := by
  rfl

/-! ## Attempt-level lemmas -/

theorem attemptLoop_succ (env : Env) (u : String) (fuel attempts : Nat) (errs : List String) :
    attemptLoop env u (fuel + 1) attempts errs =
      match attemptStep (env.attemptOutcome u (attempts + 1)) (attempts + 1) with
      | .ok => ⟨errs, true, attempts + 1⟩
      | .fail m => attemptLoop env u fuel (attempts + 1) (errs ++ [m]) := rfl

theorem runAttempts_ok1 (env : Env) (u : String)
    (h1 : attemptStep (env.attemptOutcome u 1) 1 = .ok) :
    runAttempts env u = ⟨[], true, 1⟩ := by
  show attemptLoop env u 2 0 [] = _
  rw [attemptLoop_succ, h1]

theorem runAttempts_ok2 (env : Env) (u m1 : String)
    (h1 : attemptStep (env.attemptOutcome u 1) 1 = .fail m1)
    (h2 : attemptStep (env.attemptOutcome u 2) 2 = .ok) :
    runAttempts env u = ⟨[m1], true, 2⟩ := by
  show attemptLoop env u 2 0 [] = _
  rw [attemptLoop_succ, h1]
  show attemptLoop env u 1 1 [m1] = _
  rw [attemptLoop_succ, h2]

theorem runAttempts_fail2 (env : Env) (u m1 m2 : String)
    (h1 : attemptStep (env.attemptOutcome u 1) 1 = .fail m1)
    (h2 : attemptStep (env.attemptOutcome u 2) 2 = .fail m2) :
    runAttempts env u = ⟨[m1, m2], false, 2⟩ := by
  show attemptLoop env u 2 0 [] = _
  rw [attemptLoop_succ, h1]
  show attemptLoop env u 1 1 [m1] = _
  rw [attemptLoop_succ, h2]
  rfl

theorem attemptMsg_ne_empty (a : Nat) (e : String) :
    ("Attempt " ++ toString a ++ ": " ++ e) ≠ "" := by
  intro h
  have hl := congrArg String.length h
  simp only [String.length_append] at hl
  have h8 : ("Attempt " : String).length = 8 := by decide
  have h2 : (": " : String).length = 2 := by decide
  have h0 : ("" : String).length = 0 := by decide
  omega

theorem attemptStep_fail_ne {o : AttemptOutcome} {a : Nat} {m : String}
    (h : attemptStep o a = .fail m) : m ≠ "" := by
  unfold attemptStep at h
  rcases hn : o.navError with _ | e
  · rw [hn] at h
    by_cases hm : o.movement = true
    · rw [if_pos hm] at h
      rcases hs : o.saveError with _ | e
      · rw [hs] at h
        exact absurd h (by simp)
      · rw [hs] at h
        simp only [AttemptStep.fail.injEq] at h
        subst h
        exact attemptMsg_ne_empty a e
    · rw [if_neg hm] at h
      simp only [AttemptStep.fail.injEq] at h
      subst h
      decide
  · rw [hn] at h
    simp only [AttemptStep.fail.injEq] at h
    subst h
    exact attemptMsg_ne_empty a e

theorem runAttempts_fail_shape (env : Env) (u : String)
    (hfail : (runAttempts env u).success = false) :
    ∃ m1 m2, runAttempts env u = ⟨[m1, m2], false, 2⟩ ∧ m1 ≠ "" ∧ m2 ≠ "" := by
  cases h1 : attemptStep (env.attemptOutcome u 1) 1 with
  | ok => rw [runAttempts_ok1 env u h1] at hfail; exact absurd hfail (by simp)
  | fail m1 =>
    cases h2 : attemptStep (env.attemptOutcome u 2) 2 with
    | ok => rw [runAttempts_ok2 env u m1 h1 h2] at hfail; exact absurd hfail (by simp)
    | fail m2 =>
      exact ⟨m1, m2, runAttempts_fail2 env u m1 m2 h1 h2,
        attemptStep_fail_ne h1, attemptStep_fail_ne h2⟩

theorem runAttempts_success_first (env : Env) (u : String)
    (hs : (runAttempts env u).success = true)
    (h1 : (runAttempts env u).attemptsUsed = 1) :
    (runAttempts env u).errors = [] := by
  cases ha : attemptStep (env.attemptOutcome u 1) 1 with
  | ok => rw [runAttempts_ok1 env u ha]
  | fail m1 =>
    cases hb : attemptStep (env.attemptOutcome u 2) 2 with
    | ok => rw [runAttempts_ok2 env u m1 ha hb] at h1; exact absurd h1 (by simp)
    | fail m2 => rw [runAttempts_fail2 env u m1 m2 ha hb] at hs; exact absurd hs (by simp)

theorem joinComma_ne_empty (m : String) (rest : List String) (hm : m ≠ "") :
    joinComma (m :: rest) ≠ "" := by
  cases rest with
  | nil => exact hm
  | cons r rs =>
    intro h
    have hl := congrArg String.length h
    simp only [joinComma, String.length_append] at hl
    have h2 : (", " : String).length = 2 := by decide
    have h0 : ("" : String).length = 0 := by decide
    omega

/-! ## Claims about the per-URL result record -/

/-- Claim C1 (amended): a capture that succeeds has `final_url` and
`subject` populated, and when it succeeds on the first attempt its joined
error string is `""`; a capture whose two attempts both fail has
`final_url` and `subject` unset and a non-empty joined error string.  (The
original claim asserted `error = ""` for every success; a success on the
second attempt keeps the first attempt's error message, see the
counterexample.) -/
theorem capture_result_fields (env : Env) (u fname : String) :
    ((runAttempts env u).success = true →
      (freezeResult env u fname).final_url = some (env.currentUrl u) ∧
      (freezeResult env u fname).subject = some (env.title u)) ∧
    ((runAttempts env u).success = true → (runAttempts env u).attemptsUsed = 1 →
      (freezeResult env u fname).error = "") ∧
    ((runAttempts env u).success = false →
      (freezeResult env u fname).final_url = none ∧
      (freezeResult env u fname).subject = none ∧
      (freezeResult env u fname).error ≠ "") := by
  refine ⟨?_, ?_, ?_⟩
  · intro hs
    constructor <;> simp [freezeResult, hs]
  · intro hs h1
    have he := runAttempts_success_first env u hs h1
    simp [freezeResult, he, joinComma]
  · intro hs
    obtain ⟨m1, m2, hshape, hm1, hm2⟩ := runAttempts_fail_shape env u hs
    refine ⟨by simp [freezeResult, hs], by simp [freezeResult, hs], ?_⟩
    show joinComma (runAttempts env u).errors ≠ ""
    rw [hshape]
    exact joinComma_ne_empty m1 [m2] hm1

/-- A driver behaviour under which every attempt succeeds cleanly. -/
def envOK : Env :=
  ⟨fun _ => false, fun _ _ => ⟨none, true, none⟩, fun u => u, fun _ => "t",
    fun _ => "h", fun _ => "d", "now", 7⟩

theorem capture_result_fields_witness :
    (freezeResult envOK "http://a.com" "f.png").final_url
        = some (envOK.currentUrl "http://a.com") ∧
    (freezeResult envOK "http://a.com" "f.png").subject
        = some (envOK.title "http://a.com") ∧
    (freezeResult envOK "http://a.com" "f.png").error = "" := by
  have h := capture_result_fields envOK "http://a.com" "f.png"
  exact ⟨(h.1 (by decide)).1, (h.1 (by decide)).2, h.2.1 (by decide) (by decide)⟩

/-- A driver behaviour whose first attempt raises on navigation and whose
second attempt succeeds. -/
def envC1 : Env :=
  ⟨fun _ => false,
    fun _ a => if a = 1 then ⟨some "boom", true, none⟩ else ⟨none, true, none⟩,
    fun u => u, fun _ => "t", fun _ => "h", fun _ => "d", "now", 7⟩

/-- Counterexample to claim C1 as stated: with `envC1` the capture of
http-a-com succeeds (a screenshot is saved on attempt 2), yet the frozen
record's joined error string is "Attempt 1: boom", not `""`. -/
theorem successful_capture_error_nonempty_cx :
    (runAttempts envC1 "http://a.com").success = true ∧
    (freezeResult envC1 "http://a.com" "f.png").error ≠ "" := by
  constructor
  · decide
  · decide

/-- Claim C3: a URL whose `driver.get` raises on both attempts is tried
exactly twice, produces no screenshot, is marked failed with exactly two
accumulated error entries, and the loop goes on with the rest of the batch
instead of aborting. -/
theorem nav_failure_two_attempts (env : Env) (u e1 e2 : String)
    (h1 : (env.attemptOutcome u 1).navError = some e1)
    (h2 : (env.attemptOutcome u 2).navError = some e2)
    (hfn : (filenameOf env u).isSome) :
    (runAttempts env u).attemptsUsed = 2 ∧
    (runAttempts env u).success = false ∧
    (runAttempts env u).errors.length = 2 ∧
    (∀ (s : LoopState) (rest : List String), env.interrupted s.step = false →
      ∃ s2, stepUrl env s u = .ok s2 ∧
        runLoop env s (u :: rest) = runLoop env s2 rest ∧
        s2.screenshots = s.screenshots ∧ s2.files = s.files) := by
  have hs1 : attemptStep (env.attemptOutcome u 1) 1
      = .fail ("Attempt " ++ toString 1 ++ ": " ++ e1) := by
    unfold attemptStep
    rw [h1]
  have hs2 : attemptStep (env.attemptOutcome u 2) 2
      = .fail ("Attempt " ++ toString 2 ++ ": " ++ e2) := by
    unfold attemptStep
    rw [h2]
  have hr := runAttempts_fail2 env u _ _ hs1 hs2
  refine ⟨by rw [hr], by rw [hr], by rw [hr]; rfl, ?_⟩
  intro s rest hint
  by_cases hdup : u ∈ s.scraped
  · refine ⟨{ s with done := s.done + 1, step := s.step + 1 }, ?_, ?_, rfl, rfl⟩
    · simp [stepUrl, hdup]
    · show (if env.interrupted s.step then _ else _) = _
      simp [hint, stepUrl, hdup]
  · obtain ⟨fname, hfname⟩ := Option.isSome_iff_exists.mp hfn
    have hstep : stepUrl env s u = .ok
        { s with
          scraped := s.scraped ++ [u]
          screenshots := s.screenshots + (if (runAttempts env u).success then 1 else 0)
          done := s.done + 1
          step := s.step + 1
          metadata := s.metadata ++ [(u, freezeResult env u (fname ++ ".png"))]
          navCalls := s.navCalls ++ List.replicate (runAttempts env u).attemptsUsed u
          files := s.files ++ (if (runAttempts env u).success then [fname ++ ".png"] else []) } := by
      simp [stepUrl, hdup, hfname]
    refine ⟨_, hstep, ?_, ?_, ?_⟩
    · show (if env.interrupted s.step then _ else _) = _
      rw [hint]
      simp only [Bool.false_eq_true, if_false, hstep]
    · show s.screenshots + (if (runAttempts env u).success then 1 else 0) = s.screenshots
      rw [hr]
      rfl
    · show s.files ++ (if (runAttempts env u).success then [fname ++ ".png"] else []) = s.files
      rw [hr]
      simp
  
def envNavFail : Env :=
  ⟨fun _ => false, fun _ _ => ⟨some "boom", false, none⟩, fun u => u, fun _ => "t",
    fun _ => "h", fun _ => "d", "now", 7⟩

theorem nav_failure_two_attempts_witness :
    (runAttempts envNavFail "http://a.com").attemptsUsed = 2 ∧
    (runAttempts envNavFail "http://a.com").success = false ∧
    (runAttempts envNavFail "http://a.com").errors.length = 2 ∧
    (∃ s2, stepUrl envNavFail initState "http://a.com" = .ok s2 ∧
      runLoop envNavFail initState ["http://a.com", "http://b.com"]
        = runLoop envNavFail s2 ["http://b.com"] ∧
      s2.screenshots = initState.screenshots ∧ s2.files = initState.files) := by
  have h := nav_failure_two_attempts envNavFail "http://a.com" "boom" "boom"
    (by decide) (by decide) (by decide)
  exact ⟨h.1, h.2.1, h.2.2.1, h.2.2.2 initState ["http://b.com"] (by decide)⟩

/-! ## Characterisation of an uninterrupted run of the loop -/

/-- The loop state after processing `urls` from state `s`, assuming no
interruption and no filename error. -/
def finalState (env : Env) (s : LoopState) (urls : List String) : LoopState :=
  { screenshots := s.screenshots + countSucc env (firstNew s.scraped urls)
    done := s.done + urls.length
    step := s.step + urls.length
    scraped := s.scraped ++ firstNew s.scraped urls
    metadata := s.metadata ++ (firstNew s.scraped urls).map (entryOf env)
    navCalls := s.navCalls ++ (firstNew s.scraped urls).flatMap (navOf env)
    files := s.files ++ (firstNew s.scraped urls).filterMap (fileOf env) }

theorem pngName_eq {env : Env} {u fname : String}
    (h : filenameOf env u = some fname) : pngName env u = fname ++ ".png" := by
  simp [pngName, h]

theorem runLoop_char (env : Env) (hint : ∀ n, env.interrupted n = false) :
    ∀ (urls : List String) (s : LoopState),
      (∀ u ∈ urls, (filenameOf env u).isSome) →
      runLoop env s urls = .ok (finalState env s urls) := by
  intro urls
  induction urls with
  | nil =>
    intro s _
    have h0 : runLoop env s [] = .ok s := rfl
    rw [h0]
    obtain ⟨a, b, c, d, e, f, g⟩ := s
    simp [finalState, firstNew, countSucc]
  | cons u us ih =>
    intro s hf
    obtain ⟨a, b, c, d, e, f, g⟩ := s
    have hstep := hint c
    show (if env.interrupted c then _ else _) = _
    rw [hstep]
    simp only [Bool.false_eq_true, if_false]
    by_cases hdup : u ∈ d
    · have hstepu : stepUrl env ⟨a, b, c, d, e, f, g⟩ u
          = .ok ⟨a, b + 1, c + 1, d, e, f, g⟩ := by
        simp [stepUrl, hdup]
      rw [hstepu]
      show runLoop env ⟨a, b + 1, c + 1, d, e, f, g⟩ us = _
      rw [ih ⟨a, b + 1, c + 1, d, e, f, g⟩ (fun v hv => hf v (by simp [hv]))]
      simp only [finalState, firstNew, if_pos hdup, Except.ok.injEq, LoopState.mk.injEq,
        List.length_cons]
      refine ⟨?_, ?_, ?_, ?_, ?_, ?_, ?_⟩ <;> first | trivial | omega
    · have hfu := hf u (by simp)
      obtain ⟨fname, hfname⟩ := Option.isSome_iff_exists.mp hfu
      have hstepu : stepUrl env ⟨a, b, c, d, e, f, g⟩ u = .ok
          ⟨a + (if (runAttempts env u).success then 1 else 0), b + 1, c + 1, d ++ [u],
            e ++ [(u, freezeResult env u (fname ++ ".png"))],
            f ++ List.replicate (runAttempts env u).attemptsUsed u,
            g ++ (if (runAttempts env u).success then [fname ++ ".png"] else [])⟩ := by
        simp [stepUrl, hdup, hfname]
      rw [hstepu]
      show runLoop env _ us = _
      rw [ih _ (fun v hv => hf v (by simp [hv]))]
      simp only [finalState, firstNew, if_neg hdup, Except.ok.injEq, LoopState.mk.injEq,
        List.length_cons, countSucc, List.countP_cons, List.map_cons, List.flatMap_cons,
        List.filterMap_cons]
      have hpng : pngName env u = fname ++ ".png" := pngName_eq hfname
      refine ⟨?_, by omega, by omega, ?_, ?_, ?_, ?_⟩
      · cases hsucc : (runAttempts env u).success <;>
          simp [countSucc, hsucc] <;> omega
      · simp [List.append_assoc]
      · simp only [entryOf, hpng, List.append_assoc, List.singleton_append]
      · simp only [navOf, List.append_assoc]
      · cases hsucc : (runAttempts env u).success <;>
          simp [fileOf, hsucc, hpng, List.append_assoc]

/-! ## Properties of the processed-set order -/

theorem firstNew_nodup_notmem : ∀ (urls scraped : List String),
    (firstNew scraped urls).Nodup ∧ ∀ u ∈ firstNew scraped urls, u ∉ scraped := by
  intro urls
  induction urls with
  | nil => intro scraped; exact ⟨List.nodup_nil, by simp [firstNew]⟩
  | cons u us ih =>
    intro scraped
    by_cases h : u ∈ scraped
    · simpa [firstNew, h] using ih scraped
    · obtain ⟨ihn, ihm⟩ := ih (scraped ++ [u])
      simp only [firstNew, if_neg h]
      refine ⟨List.nodup_cons.mpr ⟨?_, ihn⟩, ?_⟩
      · intro hu
        exact ihm u hu (by simp)
      · intro v hv
        rcases List.mem_cons.mp hv with rfl | hv2
        · exact h
        · intro hvs
          exact ihm v hv2 (by simp [hvs])

theorem firstNew_mem : ∀ (urls scraped : List String) (u : String),
    u ∈ firstNew scraped urls ↔ (u ∈ urls ∧ u ∉ scraped) := by
  intro urls
  induction urls with
  | nil => intro scraped u; simp [firstNew]
  | cons v vs ih =>
    intro scraped u
    by_cases h : v ∈ scraped
    · rw [show firstNew scraped (v :: vs) = firstNew scraped vs from by simp [firstNew, h]]
      rw [ih scraped u]
      constructor
      · rintro ⟨h1, h2⟩
        exact ⟨List.mem_cons_of_mem v h1, h2⟩
      · rintro ⟨h1, h2⟩
        rcases List.mem_cons.mp h1 with rfl | h3
        · exact absurd h h2
        · exact ⟨h3, h2⟩
    · rw [show firstNew scraped (v :: vs) = v :: firstNew (scraped ++ [v]) vs from by
        simp [firstNew, h]]
      constructor
      · intro hu
        rcases List.mem_cons.mp hu with rfl | h2
        · exact ⟨List.mem_cons_self u vs, h⟩
        · obtain ⟨hm, hns⟩ := (ih (scraped ++ [v]) u).mp h2
          exact ⟨List.mem_cons_of_mem v hm, fun hc => hns (by simp [hc])⟩
      · rintro ⟨h1, h2⟩
        rcases List.mem_cons.mp h1 with rfl | h3
        · exact List.mem_cons_self u _
        · by_cases hv : u = v
          · subst hv
            exact List.mem_cons_self u _
          · exact List.mem_cons_of_mem v ((ih (scraped ++ [v]) u).mpr
              ⟨h3, by simp [h2, hv]⟩)

theorem firstNew_length_le : ∀ (urls scraped : List String),
    (firstNew scraped urls).length ≤ urls.length := by
  intro urls
  induction urls with
  | nil => intro scraped; simp [firstNew]
  | cons u us ih =>
    intro scraped
    by_cases h : u ∈ scraped
    · simp only [firstNew, if_pos h, List.length_cons]
      exact Nat.le_succ_of_le (ih scraped)
    · simp only [firstNew, if_neg h, List.length_cons]
      exact Nat.succ_le_succ (ih (scraped ++ [u]))

/-! ## Batch-level claims -/

/-- Claim C5: in an uninterrupted run each distinct URL yields at most one
metadata entry (the key list is exactly the first-occurrence dedup of the
input, without duplicates); `done` counts every input occurrence while
`screenshots` and the `driver.get` calls range over first occurrences only,
and the skip branch for an already-scraped URL bumps only `done` and the
iteration counter. -/
theorem dedup_loop_spec (env : Env) (urls : List String)
    (hint : ∀ n, env.interrupted n = false)
    (hf : ∀ u ∈ urls, (filenameOf env u).isSome) :
    ∃ out, runCapture env urls = .ok out ∧
      out.metadata.map Prod.fst = firstNew [] urls ∧
      (out.metadata.map Prod.fst).Nodup ∧
      (∀ u, u ∈ out.metadata.map Prod.fst ↔ u ∈ urls) ∧
      out.done = urls.length ∧
      out.screenshots = countSucc env (firstNew [] urls) ∧
      out.navCalls = (firstNew [] urls).flatMap (navOf env) ∧
      (∀ (s : LoopState) (u : String), u ∈ s.scraped → stepUrl env s u =
        .ok { s with done := s.done + 1, step := s.step + 1 }) := by
  have hchar := runLoop_char env hint urls initState hf
  have hkeys : (finalState env initState urls).metadata.map Prod.fst
      = firstNew [] urls := by
    simp [finalState, initState, List.map_map, Function.comp_def, entryOf]
  refine ⟨finalState env initState urls, hchar, hkeys, ?_, ?_, ?_, ?_, ?_, ?_⟩
  · rw [hkeys]
    exact (firstNew_nodup_notmem urls []).1
  · intro u
    rw [hkeys, firstNew_mem]
    simp
  · simp [finalState, initState]
  · simp [finalState, initState]
  · simp [finalState, initState]
  · intro s u hu
    simp [stepUrl, hu]

/-- URLs and an interruption-free environment for the loop witnesses: the
first URL is a duplicate pair, the second one fails both attempts. -/
def urlsW : List String := ["http://a.com", "http://bad.com", "http://a.com"]

def envW : Env :=
  ⟨fun _ => false,
    fun u _ => if u = "http://bad.com" then ⟨some "boom", false, none⟩
      else ⟨none, true, none⟩,
    fun u => u, fun _ => "t", fun _ => "h", fun _ => "d", "now", 7⟩

theorem dedup_loop_spec_witness :
    ∃ out, runCapture envW urlsW = .ok out ∧
      out.metadata.map Prod.fst = firstNew [] urlsW ∧
      (out.metadata.map Prod.fst).Nodup ∧
      (∀ u, u ∈ out.metadata.map Prod.fst ↔ u ∈ urlsW) ∧
      out.done = urlsW.length ∧
      out.screenshots = countSucc envW (firstNew [] urlsW) ∧
      out.navCalls = (firstNew [] urlsW).flatMap (navOf envW) ∧
      (∀ (s : LoopState) (u : String), u ∈ s.scraped → stepUrl envW s u =
        .ok { s with done := s.done + 1, step := s.step + 1 }) :=
  dedup_loop_spec envW urlsW (fun _ => rfl) (by decide)

theorem flatMap_nav_count_zero (env : Env) : ∀ (vs : List String) (u : String),
    u ∉ vs → (vs.flatMap (navOf env)).count u = 0 := by
  intro vs
  induction vs with
  | nil => intro u _; rfl
  | cons v vs ih =>
    intro u hu
    rw [List.flatMap_cons, List.count_append]
    have hvne : (v == u) = false := by
      simp only [beq_eq_false_iff_ne, ne_eq]
      intro h
      exact hu (by simp [h])
    rw [show (navOf env v).count u = 0 from by simp [navOf, List.count_replicate, hvne]]
    rw [ih u (fun h => hu (by simp [h]))]

theorem flatMap_nav_count (env : Env) : ∀ (N : List String) (u : String),
    N.Nodup → u ∈ N →
    (N.flatMap (navOf env)).count u = (runAttempts env u).attemptsUsed := by
  intro N
  induction N with
  | nil => intro u _ hu; exact absurd hu (by simp)
  | cons v vs ih =>
    intro u hnd hu
    rw [List.flatMap_cons, List.count_append]
    rcases List.mem_cons.mp hu with rfl | hu2
    · rw [show (navOf env u).count u = (runAttempts env u).attemptsUsed from by
        simp [navOf, List.count_replicate]]
      rw [flatMap_nav_count_zero env vs u (List.nodup_cons.mp hnd).1]
      omega
    · have hvne : v ≠ u := fun h => (List.nodup_cons.mp hnd).1 (h ▸ hu2)
      rw [show (navOf env v).count u = 0 from by
        simp [navOf, List.count_replicate, beq_eq_false_iff_ne, hvne]]
      rw [ih u (List.nodup_cons.mp hnd).2 hu2]
      omega

theorem map_entry_filter_zero (env : Env) : ∀ (vs : List String) (u : String),
    u ∉ vs → (vs.map (entryOf env)).filter (fun p => p.1 == u) = [] := by
  intro vs
  induction vs with
  | nil => intro u _; rfl
  | cons v vs ih =>
    intro u hu
    rw [List.map_cons, List.filter_cons]
    have hvne : ((entryOf env v).1 == u) = false := by
      simp only [entryOf, beq_eq_false_iff_ne, ne_eq]
      intro h
      exact hu (by simp [h])
    rw [if_neg (by simp [hvne])]
    exact ih u (fun h => hu (by simp [h]))

theorem map_entry_filter (env : Env) : ∀ (N : List String) (u : String),
    N.Nodup → u ∈ N →
    (N.map (entryOf env)).filter (fun p => p.1 == u) = [entryOf env u] := by
  intro N
  induction N with
  | nil => intro u _ hu; exact absurd hu (by simp)
  | cons v vs ih =>
    intro u hnd hu
    rw [List.map_cons, List.filter_cons]
    rcases List.mem_cons.mp hu with rfl | hu2
    · rw [if_pos (by simp [entryOf])]
      rw [map_entry_filter_zero env vs u (List.nodup_cons.mp hnd).1]
    · have hvne : v ≠ u := fun h => (List.nodup_cons.mp hnd).1 (h ▸ hu2)
      rw [if_neg (by simp [entryOf, hvne])]
      exact ih u (List.nodup_cons.mp hnd).2 hu2

/-- Claim C9: a URL enters the processed-set before its first attempt, so
even when its capture fails on both attempts its later duplicate
occurrences are skipped: over the whole run the driver navigates to it only
`attemptsUsed`-many times (2 on failure), and its single frozen failed
record is never overwritten. -/
theorem failed_url_not_reattempted (env : Env) (urls : List String) (u : String)
    (hint : ∀ n, env.interrupted n = false)
    (hf : ∀ v ∈ urls, (filenameOf env v).isSome)
    (hu : u ∈ urls)
    (hfail : (runAttempts env u).success = false) :
    ∃ out, runCapture env urls = .ok out ∧
      out.navCalls.count u = (runAttempts env u).attemptsUsed ∧
      (runAttempts env u).attemptsUsed = 2 ∧
      out.metadata.filter (fun p => p.1 == u)
        = [(u, freezeResult env u (pngName env u))] ∧
      (freezeResult env u (pngName env u)).final_url = none ∧
      (freezeResult env u (pngName env u)).subject = none := by
  have hchar := runLoop_char env hint urls initState hf
  have hnd := (firstNew_nodup_notmem urls []).1
  have humem : u ∈ firstNew [] urls := (firstNew_mem urls [] u).mpr ⟨hu, by simp⟩
  obtain ⟨m1, m2, hshape, _, _⟩ := runAttempts_fail_shape env u hfail
  refine ⟨finalState env initState urls, hchar, ?_, ?_, ?_, ?_, ?_⟩
  · show (initState.navCalls ++ (firstNew [] urls).flatMap (navOf env)).count u = _
    rw [show initState.navCalls = [] from rfl, List.nil_append]
    exact flatMap_nav_count env (firstNew [] urls) u hnd humem
  · rw [hshape]
  · show (initState.metadata ++ (firstNew [] urls).map (entryOf env)).filter _ = _
    rw [show initState.metadata = [] from rfl, List.nil_append]
    exact map_entry_filter env (firstNew [] urls) u hnd humem
  · simp [freezeResult, hfail]
  · simp [freezeResult, hfail]

theorem failed_url_not_reattempted_witness :
    ∃ out, runCapture envW urlsW = .ok out ∧
      out.navCalls.count "http://bad.com" = (runAttempts envW "http://bad.com").attemptsUsed ∧
      (runAttempts envW "http://bad.com").attemptsUsed = 2 ∧
      out.metadata.filter (fun p => p.1 == "http://bad.com")
        = [("http://bad.com", freezeResult envW "http://bad.com" (pngName envW "http://bad.com"))] ∧
      (freezeResult envW "http://bad.com" (pngName envW "http://bad.com")).final_url = none ∧
      (freezeResult envW "http://bad.com" (pngName envW "http://bad.com")).subject = none :=
  failed_url_not_reattempted envW urlsW "http://bad.com" (fun _ => rfl) (by decide)
    (by decide) (by decide)

/-- Claim C10: with no interruption the counters satisfy
`screenshots ≤ done ≤ total` after every prefix of the input (the loop
state after `k` iterations is the state of the run on the length-`k`
prefix), and the completed run has `done` equal to the number of input
URLs, exactly one metadata entry per distinct URL, and a non-null
timestamp on every entry, failed ones included. -/
theorem loop_counters_invariant (env : Env) (urls : List String)
    (hint : ∀ n, env.interrupted n = false)
    (hf : ∀ u ∈ urls, (filenameOf env u).isSome) :
    (∀ k, ∃ sk, runLoop env initState (urls.take k) = .ok sk ∧
      sk.screenshots ≤ sk.done ∧ sk.done ≤ urls.length) ∧
    (∃ out, runCapture env urls = .ok out ∧ out.done = urls.length ∧
      (out.metadata.map Prod.fst).Nodup ∧
      (∀ u, u ∈ out.metadata.map Prod.fst ↔ u ∈ urls) ∧
      (∀ p ∈ out.metadata, p.2.timestamp ≠ none)) := by
  constructor
  · intro k
    refine ⟨finalState env initState (urls.take k),
      runLoop_char env hint (urls.take k) initState
        (fun v hv => hf v (List.mem_of_mem_take hv)), ?_, ?_⟩
    · show initState.screenshots + countSucc env (firstNew initState.scraped (urls.take k))
        ≤ initState.done + (urls.take k).length
      have hc : countSucc env (firstNew [] (urls.take k))
          ≤ (firstNew [] (urls.take k)).length := List.countP_le_length _
      have hl := firstNew_length_le (urls.take k) []
      show 0 + countSucc env (firstNew [] (urls.take k)) ≤ 0 + (urls.take k).length
      omega
    · show initState.done + (urls.take k).length ≤ urls.length
      have := List.length_take k urls
      show 0 + (urls.take k).length ≤ urls.length
      omega
  · have hchar := runLoop_char env hint urls initState hf
    have hkeys : (finalState env initState urls).metadata.map Prod.fst
        = firstNew [] urls := by
      simp [finalState, initState, List.map_map, Function.comp_def, entryOf]
    refine ⟨finalState env initState urls, hchar, by simp [finalState, initState], ?_, ?_, ?_⟩
    · rw [hkeys]
      exact (firstNew_nodup_notmem urls []).1
    · intro u
      rw [hkeys, firstNew_mem]
      simp
    · intro p hp
      have hp2 : p ∈ (firstNew [] urls).map (entryOf env) := by
        simpa [finalState, initState] using hp
      obtain ⟨v, _, rfl⟩ := List.mem_map.mp hp2
      simp [entryOf, freezeResult]

theorem loop_counters_invariant_witness :
    (∀ k, ∃ sk, runLoop envW initState (urlsW.take k) = .ok sk ∧
      sk.screenshots ≤ sk.done ∧ sk.done ≤ urlsW.length) ∧
    (∃ out, runCapture envW urlsW = .ok out ∧ out.done = urlsW.length ∧
      (out.metadata.map Prod.fst).Nodup ∧
      (∀ u, u ∈ out.metadata.map Prod.fst ↔ u ∈ urlsW) ∧
      (∀ p ∈ out.metadata, p.2.timestamp ≠ none)) :=
  loop_counters_invariant envW urlsW (fun _ => rfl) (by decide)

/-! ## Interruption claims -/

/-- Claim C2 (amended): the interruption flag is sampled before each URL is
started; when it is set the batch aborts at once with the distinguishable
`ProcessorInterruptedException`, and the screenshot files already saved in
the staging area are preserved — but the metadata document is written only
after the loop completes, so on interruption it is absent from the staging
area and the metadata records collected in memory are lost.  (The original
claim asserted that the metadata document too is preserved.) -/
theorem interrupt_aborts_preserves_files (env : Env) (s : LoopState)
    (u : String) (rest : List String)
    (h : env.interrupted s.step = true) :
    runLoop env s (u :: rest) = .error ⟨.interrupted, s⟩ ∧
    stagingAfter (runLoop env s (u :: rest)) = s.files ∧
    metadataDocument (runLoop env s (u :: rest)) = none := by
  have he : runLoop env s (u :: rest) = .error ⟨.interrupted, s⟩ := by
    show (if env.interrupted s.step then _ else _) = _
    rw [h]
    simp
  exact ⟨he, by rw [he]; rfl, by rw [he]; rfl⟩

def envIntNow : Env :=
  ⟨fun _ => true, fun _ _ => ⟨none, true, none⟩, fun u => u, fun _ => "t",
    fun _ => "h", fun _ => "d", "now", 7⟩

theorem interrupt_aborts_preserves_files_witness :
    runLoop envIntNow initState ["http://a.com"] = .error ⟨.interrupted, initState⟩ ∧
    stagingAfter (runLoop envIntNow initState ["http://a.com"]) = initState.files ∧
    metadataDocument (runLoop envIntNow initState ["http://a.com"]) = none :=
  interrupt_aborts_preserves_files envIntNow initState "http://a.com" [] rfl

/-- An environment that signals interruption from the second loop
iteration on, with every capture succeeding. -/
def envInt1 : Env :=
  ⟨fun n => decide (1 ≤ n), fun _ _ => ⟨none, true, none⟩, fun u => u,
    fun _ => "t", fun _ => "h", fun _ => "d", "now", 7⟩

def urls5 : List String :=
  ["http://u1.com", "http://u2.com", "http://u3.com", "http://u4.com", "http://u5.com"]

/-- The loop state at the moment `envInt1` interrupts the batch: one URL
processed, its screenshot saved, its metadata record held in memory. -/
def cxState : LoopState :=
  ⟨1, 1, 1, ["http://u1.com"],
    [("http://u1.com",
      ⟨"http://u1.com", "d-now-h.png", some 7, "", some "http://u1.com", some "t"⟩)],
    ["http://u1.com"], ["d-now-h.png"]⟩

/-- Counterexample to claim C2 as stated: interruption signalled after 1 of
5 URLs does raise the interruption error with the first URL's screenshot
preserved in staging and its metadata record collected in memory, but the
metadata document is NOT in the staging area (it is only written after the
loop completes), so it is lost rather than retrievable. -/
theorem interrupt_metadata_lost_cx :
    runCapture envInt1 urls5 = .error ⟨.interrupted, cxState⟩ ∧
    cxState.metadata.length = 1 ∧
    cxState.files = ["d-now-h.png"] ∧
    metadataFilename ∉ stagingAfter (runCapture envInt1 urls5) ∧
    metadataDocument (runCapture envInt1 urls5) = none := by
  have h : runCapture envInt1 urls5 = .error ⟨.interrupted, cxState⟩ := by rfl
  refine ⟨h, rfl, rfl, ?_, ?_⟩
  · rw [h]
    decide
  · rw [h]
    rfl
